import Mathlib

/-!
Shallow embedding of the AIND-Recognizer core (`my_recognizer.py`,
`my_model_selectors.py`).

Scores and selection criteria in the Python source are IEEE floats that can
take the values `-inf`, `+inf` and `nan` (e.g. `float('-inf')` sentinels,
`np.mean([])`).  We embed these as `PyFloat`: an exact rational payload plus
the three special values, with Python's comparison semantics (every
comparison involving `nan` is false) and Python truthiness (only `0.0` is
falsy).  The HMM library (`hmmlearn`), whose fit/score numerics are a black
box per the spec, is embedded as an oracle environment `Env`.
-/

set_option autoImplicit false

/-- A Python float as it is used by the scoring code: an exact rational,
or one of the special values `nan`, `-inf`, `+inf`. -/
inductive PyFloat where
  | nan : PyFloat
  | ninf : PyFloat
  | pinf : PyFloat
  | val : ℚ → PyFloat
deriving DecidableEq, Repr

/-- Python `<` on floats: any comparison involving `nan` is `False`. -/
def PyFloat.lt : PyFloat → PyFloat → Bool
  | .nan, _ => false
  | _, .nan => false
  | .ninf, .ninf => false
  | .ninf, _ => true
  | _, .ninf => false
  | .pinf, _ => false
  | _, .pinf => true
  | .val a, .val b => decide (a < b)

/-- Python truthiness of a float: only `0.0` is falsy (`-inf`, `+inf` and
`nan` are all truthy). -/
def PyFloat.truthy : PyFloat → Bool
  | .val q => decide (q ≠ 0)
  | _ => true

/-- IEEE negation. -/
def PyFloat.neg : PyFloat → PyFloat
  | .nan => .nan
  | .ninf => .pinf
  | .pinf => .ninf
  | .val q => .val (-q)

/-- IEEE addition on the embedded floats (`-inf + inf = nan`). -/
def PyFloat.add : PyFloat → PyFloat → PyFloat
  | .nan, _ => .nan
  | _, .nan => .nan
  | .ninf, .pinf => .nan
  | .pinf, .ninf => .nan
  | .ninf, _ => .ninf
  | _, .ninf => .ninf
  | .pinf, _ => .pinf
  | _, .pinf => .pinf
  | .val a, .val b => .val (a + b)

/-- IEEE subtraction. -/
def PyFloat.sub (a b : PyFloat) : PyFloat := a.add b.neg

/-- Multiplication by the constant `-2` (the only product taken of a score
in the source: `-2 * logL`). -/
def PyFloat.neg2mul : PyFloat → PyFloat
  | .nan => .nan
  | .ninf => .pinf
  | .pinf => .ninf
  | .val q => .val (-2 * q)

/-- Sum of a list of floats starting from `0.0`, as both `np.mean` and
`statistics.mean` compute it (addition on exact rationals is associative and
commutative, so the summation order does not matter in the embedding). -/
def pySum (xs : List PyFloat) : PyFloat := xs.foldl PyFloat.add (.val 0)

/-- Division of a float by a positive integer count. -/
def pyDivNat (x : PyFloat) (n : ℕ) : PyFloat :=
  match x with
  | .val q => .val (q / n)
  | other => other

theorem PyFloat.lt_nan_left (a : PyFloat) : PyFloat.lt .nan a = false := by
  cases a <;> rfl

theorem PyFloat.lt_nan_right (a : PyFloat) : PyFloat.lt a .nan = false := by
  cases a <;> rfl

theorem PyFloat.lt_irrefl (a : PyFloat) : PyFloat.lt a a = false := by
  cases a <;> simp [PyFloat.lt]

theorem PyFloat.lt_asymm {a b : PyFloat} (h : PyFloat.lt a b = true) :
    PyFloat.lt b a = false := by
  cases a <;> cases b <;> simp_all [PyFloat.lt] <;> linarith

theorem PyFloat.lt_trans {a b c : PyFloat} (hab : PyFloat.lt a b = true)
    (hbc : PyFloat.lt b c = true) : PyFloat.lt a c = true := by
  cases a <;> cases b <;> cases c <;> simp_all [PyFloat.lt] <;> linarith

theorem PyFloat.lt_total {a b : PyFloat} (ha : a ≠ .nan) (hb : b ≠ .nan)
    (hab : PyFloat.lt a b = false) : a = b ∨ PyFloat.lt b a = true := by
  cases a <;> cases b <;> simp_all [PyFloat.lt]
  rcases eq_or_lt_of_le hab with h | h
  · exact Or.inl h.symm
  · exact Or.inr h

theorem PyFloat.lt_true_ne_nan {a b : PyFloat} (h : PyFloat.lt a b = true) :
    a ≠ .nan ∧ b ≠ .nan := by
  constructor <;> rintro rfl <;> simp [PyFloat.lt_nan_left, PyFloat.lt_nan_right] at h

/-!
## The HMM black box and the trainer (`ModelSelector.base_model`)

`hmmlearn.hmm.GaussianHMM` is the spec's external SequenceModel capability.
With the fixed configuration used by `base_model` (diagonal covariance,
`n_iter=1000`, fixed `random_state`), a fitted model is determined by its
state count and the data it was last fit on; whether `fit` raises and what
`score` returns are oracle functions of the environment.
-/

/-- A fitted `GaussianHMM` handle: the state count it was configured with and
the `(X, lengths)` data of its most recent `fit` (which, at fixed seed and
configuration, determine its parameters). -/
structure HMMModel where
  n_components : ℕ
  fitX : List (List ℚ)
  fitLengths : List ℕ
deriving DecidableEq, Repr

/-- Oracle environment for the external numeric capabilities:
whether a `GaussianHMM.fit` call raises, what `model.score` returns (or that
it raises), and the real-valued `np.log` embedded as a rational oracle (its
numeric value never influences control flow in the source). -/
structure Env where
  fitFails : ℕ → List (List ℚ) → List ℕ → Bool
  scoreResult : HMMModel → List (List ℚ) → List ℕ → Except Unit PyFloat
  npLog : ℕ → ℚ

/-- `GaussianHMM(n_components=num_states, ...).fit(X, lengths)`: raises per
the oracle, otherwise yields the model fitted on `(X, lengths)`. -/
def gaussianHMMFit (env : Env) (n : ℕ) (X : List (List ℚ)) (lengths : List ℕ) :
    Except Unit HMMModel :=
  if env.fitFails n X lengths then .error () else .ok ⟨n, X, lengths⟩

/-- `model.fit(X, lengths)` on an existing model: refits the same handle in
place on the new data (state count unchanged), or raises per the oracle. -/
def modelFit (env : Env) (m : HMMModel) (X : List (List ℚ)) (lengths : List ℕ) :
    Except Unit HMMModel :=
  if env.fitFails m.n_components X lengths then .error ()
  else .ok ⟨m.n_components, X, lengths⟩

/-- `ModelSelector.base_model` (`my_model_selectors.py`, lines 34-47):
try to fit a fresh `GaussianHMM`; on any exception return `None`. -/
def base_model (env : Env) (X : List (List ℚ)) (lengths : List ℕ)
    (num_states : ℕ) : Option HMMModel :=
  match gaussianHMMFit env num_states X lengths with
  | .ok hmm_model => some hmm_model
  | .error _ => none

/-- `model.score(X, lengths)` where `model` may be Python `None`
(`None.score` raises `AttributeError`, caught by the same broad `except`). -/
def optScore (env : Env) (m : Option HMMModel) (X : List (List ℚ))
    (lengths : List ℕ) : Except Unit PyFloat :=
  match m with
  | none => .error ()
  | some mm => env.scoreResult mm X lengths

/-!
## The recognizer (`my_recognizer.py`)
-/

/-- `calculate_score` (`my_recognizer.py`, lines 4-13): score a sequence with
a model, converting any exception into the sentinel `float('-inf')`. -/
def calculate_score (env : Env) (model : HMMModel) (X : List (List ℚ))
    (length : List ℕ) : PyFloat :=
  match env.scoreResult model X length with
  | .ok score => score
  | .error _ => .ninf

/-- The ScoreRow built for one test item (`my_recognizer.py`, line 36): score
every word's model with `calculate_score` and keep the pairs whose score is
truthy (`if score`).  The dict is embedded as a list of pairs in insertion
order. -/
def recognizeItem (env : Env) (models : List (String × HMMModel))
    (X : List (List ℚ)) (length : List ℕ) : List (String × PyFloat) :=
  (models.map (fun wm => (wm.1, calculate_score env wm.2 X length))).filter
    (fun p => p.2.truthy)

/-- Python `max(probs, key=probs.get)` over the row: raises `ValueError` on an
empty dict, otherwise returns the first key, replacing it whenever a later
key's value is strictly greater than the current best's. -/
def pyMaxKey (row : List (String × PyFloat)) : Except Unit String :=
  match row with
  | [] => .error ()
  | p :: rest =>
    .ok ((rest.foldl (fun best q => if PyFloat.lt best.2 q.2 then q else best) p).1)

/-- `recognize` (`my_recognizer.py`, lines 15-41): for each test item build
the ScoreRow and append the arg-max guess; an empty row makes the propagated
`ValueError` abort the whole call, modelled by `Except.error`. -/
def recognize (env : Env) (models : List (String × HMMModel)) :
    List (List (List ℚ) × List ℕ) →
    Except Unit (List (List (String × PyFloat)) × List String)
  | [] => .ok ([], [])
  | item :: rest =>
    let probs := recognizeItem env models item.1 item.2
    match pyMaxKey probs with
    | .error e => .error e
    | .ok g =>
      match recognize env models rest with
      | .error e => .error e
      | .ok (probabilities, guesses) => .ok (probs :: probabilities, g :: guesses)

/-!
## Model selectors (`my_model_selectors.py`)
-/

/-- The per-word state of a `ModelSelector` (constructor, lines 16-29):
`hwords` is the `all_word_Xlengths` dict (word → concatenated `(X, lengths)`)
in its iteration order — `self.words` has the same keys, so DIC's iteration
over `self.words` with lookups in `self.hwords` is embedded as iteration over
this one association list; `sequences`, `X`, `lengths` are this word's data. -/
structure Selector where
  hwords : List (String × (List (List ℚ) × List ℕ))
  sequences : List (List (List ℚ))
  X : List (List ℚ)
  lengths : List ℕ
  this_word : String
  n_constant : ℕ
  min_n_components : ℕ
  max_n_components : ℕ
deriving DecidableEq, Repr

/-- Python `range(a, b + 1)` as a list (ascending, empty when `b + 1 ≤ a`). -/
def pyRange (a b : ℕ) : List ℕ := List.range' a (b + 1 - a)

/-- `SelectorConstant.select` (lines 55-61): train once at `n_constant`. -/
def SelectorConstant.select (env : Env) (c : Selector) : Option HMMModel :=
  base_model env c.X c.lengths c.n_constant

/-- The BIC score `s` computed for one candidate `n` (lines 84-91):
`-2 * logL + (n^2 + 2 * features * n - 1) * np.log(N)` when training and
scoring succeed, `float('inf')` when the broad `except` fires (the only
exception source in the `try` block is `model.score`, including the
`AttributeError` when `base_model` returned `None`). -/
def bicScore (env : Env) (c : Selector) (n : ℕ) : PyFloat :=
  let N : ℕ := c.X.length
  let features : ℕ := (c.X.headD []).length
  match optScore env (base_model env c.X c.lengths n) c.X c.lengths with
  | .error _ => .pinf
  | .ok logL =>
    PyFloat.add (PyFloat.neg2mul logL)
      (.val (((n : ℚ) ^ 2 + 2 * (features : ℚ) * (n : ℚ) - 1) * env.npLog N))

/-- The candidate loop of `SelectorBIC.select` (lines 81-96), threading the
running best score `b_s` and best model `b_model`. -/
def bicLoop (env : Env) (c : Selector) :
    List ℕ → PyFloat → Option HMMModel → Option HMMModel
  | [], _, b_model => b_model
  | n :: rest, b_s, b_model =>
    let model := base_model env c.X c.lengths n
    let s := bicScore env c n
    if PyFloat.lt s b_s then bicLoop env c rest s model
    else bicLoop env c rest b_s b_model

/-- `SelectorBIC.select` (lines 71-98). -/
def SelectorBIC.select (env : Env) (c : Selector) : Option HMMModel :=
  bicLoop env c (pyRange c.min_n_components c.max_n_components) .pinf none

/-- `np.mean` of a list of floats: `nan` (with a runtime warning, not an
exception) on the empty list, otherwise the exact sum divided by the count. -/
def npMean (xs : List PyFloat) : PyFloat :=
  match xs with
  | [] => .nan
  | _ => pyDivNat (pySum xs) xs.length

/-- DIC's inner loop over the other words (lines 121-124): score each word
different from `this_word` with the candidate model; the first raising score
aborts the `try` block. -/
def dicTmpScores (env : Env) (m : HMMModel)
    (hwords : List (String × (List (List ℚ) × List ℕ))) (this_word : String) :
    Except Unit (List PyFloat) :=
  (hwords.filter (fun p => p.1 ≠ this_word)).mapM
    (fun p => env.scoreResult m p.2.1 p.2.2)

/-- The DIC score `s` computed for one candidate `n` (lines 118-130):
`logL - np.mean(tmp_scores)` on success, `float('-inf')` when the broad
`except` fires (own-word scoring raised, `base_model` returned `None`, or an
other-word scoring raised). -/
def dicScore (env : Env) (c : Selector) (n : ℕ) : PyFloat :=
  match base_model env c.X c.lengths n with
  | none => .ninf
  | some m =>
    match env.scoreResult m c.X c.lengths with
    | .error _ => .ninf
    | .ok logL =>
      match dicTmpScores env m c.hwords c.this_word with
      | .error _ => .ninf
      | .ok tmp_scores => PyFloat.sub logL (npMean tmp_scores)

/-- The candidate loop of `SelectorDIC.select` (lines 114-134) with its
`s > b_s` update. -/
def dicLoop (env : Env) (c : Selector) :
    List ℕ → PyFloat → Option HMMModel → Option HMMModel
  | [], _, b_model => b_model
  | n :: rest, b_s, b_model =>
    let model := base_model env c.X c.lengths n
    let s := dicScore env c n
    if PyFloat.lt b_s s then dicLoop env c rest s model
    else dicLoop env c rest b_s b_model

/-- `SelectorDIC.select` (lines 110-136). -/
def SelectorDIC.select (env : Env) (c : Selector) : Option HMMModel :=
  dicLoop env c (pyRange c.min_n_components c.max_n_components) .ninf none

/-!
## Cross-validation selector (`SelectorCV`, lines 138-175)
-/

/-- Modelled from the spec: `combine_sequences` is imported from `asl_utils`,
which is not part of the two source files.  Per the spec's external-interface
section it is the combine-for-subset utility that, "given a list of sequence
indices and the per-word sequence list, returns the concatenated
(matrix, lengths) for just those indices". -/
def combine_sequences (indices : List ℕ) (sequences : List (List (List ℚ))) :
    List (List ℚ) × List ℕ :=
  ((indices.map (fun i => sequences.getD i [])).flatten,
   indices.map (fun i => (sequences.getD i []).length))

/-- The sizes of the `k` folds of `sklearn.model_selection.KFold` without
shuffling: the first `n % k` folds have one extra sample. -/
def kfoldSizes (k n : ℕ) : List ℕ :=
  (List.range k).map (fun i => n / k + if i < n % k then 1 else 0)

/-- Turn the fold sizes into contiguous `(start, size)` test blocks. -/
def kfoldBlocks : List ℕ → ℕ → List (ℕ × ℕ)
  | [], _ => []
  | s :: rest, start => (start, s) :: kfoldBlocks rest (start + s)

/-- `KFold().split(sequences)` with the library's default `n_splits=5` and no
shuffling: raises `ValueError` when there are fewer samples than splits,
otherwise yields the `(train_index, test_index)` pairs, each test block a
contiguous run of indices and the train indices its complement. -/
def kfSplit (k n : ℕ) : Except Unit (List (List ℕ × List ℕ)) :=
  if n < k then .error ()
  else .ok ((kfoldBlocks (kfoldSizes k n) 0).map (fun b =>
    ((List.range n).filter (fun i => decide (i < b.1) || decide (b.1 + b.2 ≤ i)),
     (List.range n).filter (fun i => decide (b.1 ≤ i) && decide (i < b.1 + b.2)))))

/-- The fold loop of `SelectorCV.select` (lines 160-165): for every fold,
refit the one candidate model in place on the fold's training subset, score
the held-out subset and append the score; any raise aborts the `try` block. -/
def cvFoldLoop (env : Env) (sequences : List (List (List ℚ))) :
    List (List ℕ × List ℕ) → HMMModel → List PyFloat →
    Except Unit (HMMModel × List PyFloat)
  | [], model, scores => .ok (model, scores)
  | f :: rest, model, scores =>
    let xtrain := combine_sequences f.1 sequences
    let xtest := combine_sequences f.2 sequences
    match modelFit env model xtrain.1 xtrain.2 with
    | .error e => .error e
    | .ok model2 =>
      match env.scoreResult model2 xtest.1 xtest.2 with
      | .error e => .error e
      | .ok tmp_s => cvFoldLoop env sequences rest model2 (scores ++ [tmp_s])

/-- `statistics.mean`: raises `StatisticsError` on empty data, otherwise the
exact sum over the count. -/
def statsMean (xs : List PyFloat) : Except Unit PyFloat :=
  match xs with
  | [] => .error ()
  | _ => .ok (pyDivNat (pySum xs) xs.length)

/-- One candidate's `try` block in `SelectorCV.select` (lines 155-167):
train at `n`, split into folds (`model.fit` on `None` and an undersized
`kf.split` both raise inside the block), run the fold loop, and average the
fold scores; the result is the average and the model as left by the last
fold's refit. -/
def cvEval (env : Env) (c : Selector) (n : ℕ) : Except Unit (PyFloat × HMMModel) :=
  match base_model env c.X c.lengths n with
  | none => .error ()
  | some model =>
    match kfSplit 5 c.sequences.length with
    | .error e => .error e
    | .ok folds =>
      match cvFoldLoop env c.sequences folds model [] with
      | .error e => .error e
      | .ok (model2, scores) =>
        match statsMean scores with
        | .error e => .error e
        | .ok s => .ok (s, model2)

/-- The candidate loop of `SelectorCV.select` (lines 154-173): a failed
candidate is skipped (`except: pass`), a successful one updates the running
best under `s > b_s`. -/
def cvLoop (env : Env) (c : Selector) :
    List ℕ → PyFloat → Option HMMModel → Option HMMModel
  | [], _, b_model => b_model
  | n :: rest, b_s, b_model =>
    match cvEval env c n with
    | .error _ => cvLoop env c rest b_s b_model
    | .ok sm =>
      if PyFloat.lt b_s sm.1 then cvLoop env c rest sm.1 (some sm.2)
      else cvLoop env c rest b_s b_model

/-- `SelectorCV.select` (lines 143-175): train the degraded fallback at the
fixed state count 3; with fewer than 3 sequences return it at once,
otherwise run the candidate loop seeded with it. -/
def SelectorCV.select (env : Env) (c : Selector) : Option HMMModel :=
  let b_model := base_model env c.X c.lengths 3
  if c.sequences.length < 3 then b_model
  else cvLoop env c (pyRange c.min_n_components c.max_n_components) .ninf b_model

deriving instance DecidableEq for Except

/-!
## Helper lemmas about the running-best folds
-/

/-- The running-best accumulator shared by the BIC and DIC candidate loops:
`better s b` is the strict comparison under which score `s` replaces the
running best `b`. -/
def argLoop (better : PyFloat → PyFloat → Bool) (score : ℕ → PyFloat)
    (mdl : ℕ → Option HMMModel) :
    List ℕ → PyFloat × Option HMMModel → PyFloat × Option HMMModel
  | [], st => st
  | n :: rest, st =>
    if better (score n) st.1 then argLoop better score mdl rest (score n, mdl n)
    else argLoop better score mdl rest st

theorem bicLoop_eq_argLoop (env : Env) (c : Selector) :
    ∀ (l : List ℕ) (b_s : PyFloat) (b_model : Option HMMModel),
    bicLoop env c l b_s b_model =
      (argLoop (fun s b => PyFloat.lt s b) (bicScore env c)
        (base_model env c.X c.lengths) l (b_s, b_model)).2 := by
  intro l
  induction l with
  | nil => intro b_s b_model; rfl
  | cons n rest ih =>
    intro b_s b_model
    simp only [bicLoop, argLoop]
    split
    · exact ih _ _
    · exact ih _ _

theorem dicLoop_eq_argLoop (env : Env) (c : Selector) :
    ∀ (l : List ℕ) (b_s : PyFloat) (b_model : Option HMMModel),
    dicLoop env c l b_s b_model =
      (argLoop (fun s b => PyFloat.lt b s) (dicScore env c)
        (base_model env c.X c.lengths) l (b_s, b_model)).2 := by
  intro l
  induction l with
  | nil => intro b_s b_model; rfl
  | cons n rest ih =>
    intro b_s b_model
    simp only [dicLoop, argLoop]
    split
    · exact ih _ _
    · exact ih _ _

theorem argLoop_snd_mem (better : PyFloat → PyFloat → Bool)
    (score : ℕ → PyFloat) (mdl : ℕ → Option HMMModel) :
    ∀ (l : List ℕ) (st : PyFloat × Option HMMModel),
    (argLoop better score mdl l st).2 = st.2 ∨
      ∃ n ∈ l, (argLoop better score mdl l st).2 = mdl n := by
  intro l
  induction l with
  | nil => intro st; exact Or.inl rfl
  | cons n rest ih =>
    intro st
    simp only [argLoop]
    split
    · rcases ih (score n, mdl n) with h | ⟨m, hm, h⟩
      · exact Or.inr ⟨n, by simp, h⟩
      · exact Or.inr ⟨m, by simp [hm], h⟩
    · rcases ih st with h | ⟨m, hm, h⟩
      · exact Or.inl h
      · exact Or.inr ⟨m, by simp [hm], h⟩

/-- Characterization of the minimizing fold (BIC's `if s < b_s` update):
either no candidate beats the seed and the state is unchanged, or the result
is the first candidate achieving the strict minimum. -/
theorem argLoop_first_min (score : ℕ → PyFloat) (mdl : ℕ → Option HMMModel) :
    ∀ (l : List ℕ) (b0 : PyFloat) (m0 : Option HMMModel),
    (∀ a ∈ l, score a ≠ .nan) → b0 ≠ .nan →
    (argLoop (fun s b => PyFloat.lt s b) score mdl l (b0, m0) = (b0, m0) ∧
      ∀ a ∈ l, PyFloat.lt (score a) b0 = false) ∨
    (∃ i, ∃ h : i < l.length,
      argLoop (fun s b => PyFloat.lt s b) score mdl l (b0, m0) =
        (score (l.get ⟨i, h⟩), mdl (l.get ⟨i, h⟩)) ∧
      PyFloat.lt (score (l.get ⟨i, h⟩)) b0 = true ∧
      (∀ a ∈ l.take i, PyFloat.lt (score (l.get ⟨i, h⟩)) (score a) = true) ∧
      (∀ a ∈ l, PyFloat.lt (score a) (score (l.get ⟨i, h⟩)) = false)) := by
  intro l
  induction l with
  | nil => intro b0 m0 _ _; exact Or.inl ⟨rfl, by simp⟩
  | cons a rest ih =>
    intro b0 m0 hnn hb0
    have hna : score a ≠ .nan := hnn a (by simp)
    have hnr : ∀ x ∈ rest, score x ≠ .nan := fun x hx => hnn x (by simp [hx])
    simp only [argLoop]
    by_cases h : PyFloat.lt (score a) b0 = true
    · rw [if_pos h]
      rcases ih (score a) (mdl a) hnr hna with ⟨hr, hrest⟩ | ⟨i, hi, hr, hib, htake, hall⟩
      · refine Or.inr ⟨0, by simp, by simpa using hr, by simpa using h, by simp, ?_⟩
        intro x hx
        rcases List.mem_cons.mp hx with rfl | hx
        · simpa using PyFloat.lt_irrefl (score x)
        · simpa using hrest x hx
      · refine Or.inr ⟨i + 1, by simpa using Nat.succ_lt_succ hi, by simpa using hr,
          PyFloat.lt_trans (by simpa using hib) h, ?_, ?_⟩
        · intro x hx
          rw [List.take_succ_cons] at hx
          rcases List.mem_cons.mp hx with rfl | hx
          · simpa using hib
          · simpa using htake x hx
        · intro x hx
          rcases List.mem_cons.mp hx with rfl | hx
          · simpa using PyFloat.lt_asymm (a := score (rest.get ⟨i, hi⟩)) (by simpa using hib)
          · simpa using hall x hx
    · rw [if_neg h]
      have hfa : PyFloat.lt (score a) b0 = false := by
        simpa using h
      rcases ih b0 m0 hnr hb0 with ⟨hr, hrest⟩ | ⟨i, hi, hr, hib, htake, hall⟩
      · refine Or.inl ⟨hr, ?_⟩
        intro x hx
        rcases List.mem_cons.mp hx with rfl | hx
        · exact hfa
        · exact hrest x hx
      · have hca : PyFloat.lt (score (rest.get ⟨i, hi⟩)) (score a) = true := by
          rcases PyFloat.lt_total hna hb0 hfa with heq | hlt
          · rw [heq]; exact hib
          · exact PyFloat.lt_trans hib hlt
        refine Or.inr ⟨i + 1, by simpa using Nat.succ_lt_succ hi, by simpa using hr,
          by simpa using hib, ?_, ?_⟩
        · intro x hx
          rw [List.take_succ_cons] at hx
          rcases List.mem_cons.mp hx with rfl | hx
          · simpa using hca
          · simpa using htake x hx
        · intro x hx
          rcases List.mem_cons.mp hx with rfl | hx
          · simpa using PyFloat.lt_asymm hca
          · simpa using hall x hx

/-- A fold seeded with a `nan` best never replaces it (Python `x > nan` is
always `False`). -/
theorem pyFoldMax_nan :
    ∀ (l : List (String × PyFloat)) (p : String × PyFloat), p.2 = .nan →
    l.foldl (fun best q => if PyFloat.lt best.2 q.2 then q else best) p = p := by
  intro l
  induction l with
  | nil => intro p _; rfl
  | cons q rest ih =>
    intro p hp
    simp only [List.foldl_cons, hp, PyFloat.lt_nan_left, Bool.false_eq_true, if_false]
    exact ih p hp

/-- The `max(..., key=...)` fold returns an element of the seed-plus-list
whose value no listed value strictly exceeds (Python comparison semantics,
`nan` included). -/
theorem pyFoldMax_spec :
    ∀ (l : List (String × PyFloat)) (p : String × PyFloat),
    (l.foldl (fun best q => if PyFloat.lt best.2 q.2 then q else best) p = p ∨
      l.foldl (fun best q => if PyFloat.lt best.2 q.2 then q else best) p ∈ l) ∧
    PyFloat.lt (l.foldl (fun best q => if PyFloat.lt best.2 q.2 then q else best) p).2 p.2 = false ∧
    ∀ q ∈ l,
      PyFloat.lt (l.foldl (fun best q => if PyFloat.lt best.2 q.2 then q else best) p).2 q.2 = false := by
  intro l
  induction l with
  | nil =>
    intro p
    exact ⟨Or.inl rfl, PyFloat.lt_irrefl p.2, by simp⟩
  | cons q rest ih =>
    intro p
    simp only [List.foldl_cons]
    by_cases h : PyFloat.lt p.2 q.2 = true
    · rw [if_pos h]
      obtain ⟨hmem, hq, hrest⟩ := ih q
      refine ⟨?_, ?_, ?_⟩
      · rcases hmem with hr | hr
        · exact Or.inr (by simp [hr])
        · exact Or.inr (by simp [hr])
      · cases hrp : PyFloat.lt (rest.foldl (fun best q => if PyFloat.lt best.2 q.2 then q else best) q).2 p.2 with
        | false => rfl
        | true => rw [PyFloat.lt_trans hrp h] at hq; exact hq
      · intro x hx
        rcases List.mem_cons.mp hx with rfl | hx
        · exact hq
        · exact hrest x hx
    · rw [if_neg h]
      have hfa : PyFloat.lt p.2 q.2 = false := by simpa using h
      obtain ⟨hmem, hp, hrest⟩ := ih p
      refine ⟨?_, hp, ?_⟩
      · rcases hmem with hr | hr
        · exact Or.inl hr
        · exact Or.inr (by simp [hr])
      · intro x hx
        rcases List.mem_cons.mp hx with rfl | hx
        · by_cases hpn : p.2 = PyFloat.nan
          · rw [pyFoldMax_nan rest p hpn, hpn]
            exact PyFloat.lt_nan_left x.2
          · by_cases hqn : x.2 = PyFloat.nan
            · rw [hqn]; exact PyFloat.lt_nan_right _
            · rcases PyFloat.lt_total hpn hqn hfa with heq | hlt
              · rw [← heq]; exact hp
              · cases hrx : PyFloat.lt (rest.foldl (fun best q => if PyFloat.lt best.2 q.2 then q else best) p).2 x.2 with
                | false => rfl
                | true => rw [PyFloat.lt_trans hrx hlt] at hp; exact hp
        · exact hrest x hx

/-- `max(probs, key=probs.get)` on a nonempty row: the result is a key of the
row whose score no score in the row strictly exceeds. -/
theorem pyMaxKey_spec (row : List (String × PyFloat)) (hne : row ≠ []) :
    ∃ p ∈ row, pyMaxKey row = .ok p.1 ∧ ∀ q ∈ row, PyFloat.lt p.2 q.2 = false := by
  match row, hne with
  | p :: rest, _ =>
    obtain ⟨hmem, hp, hrest⟩ := pyFoldMax_spec rest p
    refine ⟨rest.foldl (fun best q => if PyFloat.lt best.2 q.2 then q else best) p, ?_, by rfl, ?_⟩
    · rcases hmem with hr | hr
      · rw [hr]; simp
      · simp [hr]
    · intro x hx
      rcases List.mem_cons.mp hx with rfl | hx
      · exact hp
      · exact hrest x hx

/-- In an association list with pairwise-distinct keys the value of a key is
unique. -/
theorem assoc_nodup_value_eq {w : String} {m m2 : HMMModel} :
    ∀ (l : List (String × HMMModel)), (l.map Prod.fst).Nodup →
    (w, m) ∈ l → (w, m2) ∈ l → m = m2 := by
  intro l
  induction l with
  | nil => intro _ h; simp at h
  | cons p rest ih =>
    intro hnd h1 h2
    simp only [List.map_cons, List.nodup_cons] at hnd
    rcases List.mem_cons.mp h1 with rfl | h1r
    · rcases List.mem_cons.mp h2 with heq | h2r
      · exact ((Prod.ext_iff.mp heq).2).symm
      · have hni : ∀ x : HMMModel, (w, x) ∉ rest := by simpa using hnd.1
        exact absurd h2r (hni m2)
    · rcases List.mem_cons.mp h2 with rfl | h2r
      · have hni : ∀ x : HMMModel, (w, x) ∉ rest := by simpa using hnd.1
        exact absurd h1r (hni m)
      · exact ih hnd.2 h1r h2r

/-- Taking a prefix of `range'` is again a `range'`. -/
theorem take_range' : ∀ (i s n : ℕ), (List.range' s n).take i = List.range' s (min i n) := by
  intro i
  induction i with
  | zero => intro s n; simp
  | succ i ih =>
    intro s n
    cases n with
    | zero => simp
    | succ n =>
      rw [List.range'_succ, List.take_succ_cons, ih, Nat.succ_min_succ, List.range'_succ]

/-!
## Concrete fixtures for witnesses and counterexamples
-/

/-- Fixture environment: fitting always succeeds; scoring a 1-state model
raises, a 3-state model scores exactly `0.0`, any other scores `-7`. -/
def envFix : Env :=
  { fitFails := fun _ _ _ => false,
    scoreResult := fun m _ _ =>
      if m.n_components = 1 then .error ()
      else if m.n_components = 3 then .ok (.val 0)
      else .ok (.val (-7)),
    npLog := fun _ => 1 }

/-- Fixture environment: fitting always succeeds and every score is `+inf`
(keeps witness evaluation inside the special values). -/
def envPinf : Env :=
  { fitFails := fun _ _ _ => false,
    scoreResult := fun _ _ _ => .ok .pinf,
    npLog := fun _ => 0 }

/-- Fixture environment: fitting always fails. -/
def envFail : Env :=
  { fitFails := fun _ _ _ => true,
    scoreResult := fun _ _ _ => .error (),
    npLog := fun _ => 0 }

def mod1 : HMMModel := ⟨1, [], []⟩

def mod2 : HMMModel := ⟨2, [], []⟩

def mod3 : HMMModel := ⟨3, [], []⟩

/-- A two-word model table whose "A" model raises on scoring. -/
def modelsAB : List (String × HMMModel) := [("A", mod1), ("B", mod2)]

/-!
## C1 — recognizer behaviour on scoring failure
-/

/-- C1 counterexample: the claim says a word whose scoring raises has no
entry in the ScoreRow; in fact scoring "A" raises and "A" IS recorded in the
row, with the sentinel `-inf` (which is truthy and so survives the filter). -/
theorem c1_counterexample :
    envFix.scoreResult mod1 [] [] = .error () ∧
    ("A", PyFloat.ninf) ∈ recognizeItem envFix modelsAB [] [] := by decide

/-- C1 (amended): if scoring a word's model raises, that word appears in the
sequence's ScoreRow with the sentinel score `-inf` rather than being
excluded. -/
theorem c1_failed_word_in_row_with_ninf (env : Env)
    (models : List (String × HMMModel)) (X : List (List ℚ)) (length : List ℕ)
    (w : String) (m : HMMModel) (hmem : (w, m) ∈ models)
    (herr : env.scoreResult m X length = .error ()) :
    (w, PyFloat.ninf) ∈ recognizeItem env models X length := by
  unfold recognizeItem
  apply List.mem_filter.mpr
  refine ⟨List.mem_map.mpr ⟨(w, m), hmem, ?_⟩, by rfl⟩
  simp [calculate_score, herr]

/-- C1 witness: the amended theorem applied to the fixture. -/
theorem c1_witness : ("A", PyFloat.ninf) ∈ recognizeItem envFix modelsAB [] [] :=
  c1_failed_word_in_row_with_ninf envFix modelsAB [] [] "A" mod1 (by decide) (by decide)

/-!
## C7 — truthiness filtering of scores
-/

/-- C7 counterexample: the claim says a genuine log-likelihood of exactly
`0.0` is kept in the row; in fact the truthiness filter drops it ("C" scores
exactly `0.0` and is absent from the row). -/
theorem c7_counterexample :
    envFix.scoreResult mod3 [] [] = .ok (.val 0) ∧
    ¬ "C" ∈ (recognizeItem envFix [("B", mod2), ("C", mod3)] [] []).map Prod.fst := by
  decide

/-- C7 (amended): the recognizer keeps a word exactly when its score is
truthy, so a word whose model scores exactly `0.0` is dropped from the
ScoreRow — the latent defect is reproduced, not corrected. -/
theorem c7_zero_score_dropped (env : Env) (models : List (String × HMMModel))
    (X : List (List ℚ)) (length : List ℕ) (w : String) (m : HMMModel)
    (hnd : (models.map Prod.fst).Nodup) (hmem : (w, m) ∈ models)
    (hz : env.scoreResult m X length = .ok (.val 0)) :
    ¬ w ∈ (recognizeItem env models X length).map Prod.fst := by
  intro hw
  obtain ⟨p, hp, hpw⟩ := List.mem_map.mp hw
  have hf := List.mem_filter.mp hp
  obtain ⟨q, hq, hqe⟩ := List.mem_map.mp hf.1
  have hq1 : q.1 = w := by
    have := congrArg Prod.fst hqe
    simpa [hpw] using this
  have hqm : q.2 = m := by
    refine assoc_nodup_value_eq models hnd ?_ hmem
    rw [← hq1]
    exact hq
  have hp2 : p.2 = PyFloat.val 0 := by
    have := congrArg Prod.snd hqe
    simp only at this
    rw [← this, hqm, calculate_score, hz]
  have := hf.2
  rw [hp2] at this
  simp [PyFloat.truthy] at this

/-- C7 witness: the amended theorem applied to the fixture. -/
theorem c7_witness :
    ¬ "C" ∈ (recognizeItem envFix [("B", mod2), ("C", mod3)] [] []).map Prod.fst :=
  c7_zero_score_dropped envFix [("B", mod2), ("C", mod3)] [] [] "C" mod3
    (by decide) (by decide) (by decide)

/-!
## C8 — the guess is the row maximum; empty rows raise
-/

/-- On a successful run, every returned guess is a key of its row whose score
no score in that row strictly exceeds. -/
theorem recognize_ok_spec (env : Env) (models : List (String × HMMModel)) :
    ∀ (items : List (List (List ℚ) × List ℕ))
      (rows : List (List (String × PyFloat))) (guesses : List String),
    recognize env models items = .ok (rows, guesses) →
    List.Forall₂
      (fun row g => ∃ s, (g, s) ∈ row ∧ ∀ q ∈ row, PyFloat.lt s q.2 = false)
      rows guesses := by
  intro items
  induction items with
  | nil =>
    intro rows guesses h
    simp only [recognize, Except.ok.injEq, Prod.mk.injEq] at h
    obtain ⟨h1, h2⟩ := h
    subst h1; subst h2
    exact List.Forall₂.nil
  | cons it rest ih =>
    intro rows guesses h
    simp only [recognize] at h
    cases hpk : pyMaxKey (recognizeItem env models it.1 it.2) with
    | error e => rw [hpk] at h; exact absurd h (by simp)
    | ok g =>
      rw [hpk] at h
      cases hrec : recognize env models rest with
      | error e => rw [hrec] at h; exact absurd h (by simp)
      | ok pr =>
        obtain ⟨rows0, guesses0⟩ := pr
        rw [hrec] at h
        simp only [Except.ok.injEq, Prod.mk.injEq] at h
        obtain ⟨h1, h2⟩ := h
        subst h1; subst h2
        have hne : recognizeItem env models it.1 it.2 ≠ [] := by
          intro hnil
          rw [hnil] at hpk
          exact absurd hpk (by simp [pyMaxKey])
        obtain ⟨p, hpmem, hpok, hpmax⟩ := pyMaxKey_spec _ hne
        have hg : g = p.1 := by
          rw [hpok] at hpk
          exact (Except.ok.injEq .. ▸ hpk).symm
        refine List.Forall₂.cons ⟨p.2, ?_, hpmax⟩ (ih rows0 guesses0 hrec)
        rw [hg]
        exact hpmem

/-- If some test item's row is empty, `recognize` propagates an error. -/
theorem recognize_empty_row_error (env : Env) (models : List (String × HMMModel)) :
    ∀ (items : List (List (List ℚ) × List ℕ)) (X : List (List ℚ)) (l : List ℕ),
    (X, l) ∈ items → recognizeItem env models X l = [] →
    ∃ e, recognize env models items = .error e := by
  intro items
  induction items with
  | nil => intro X l h _; simp at h
  | cons it rest ih =>
    intro X l hmem hrow
    rcases List.mem_cons.mp hmem with heq | hmem
    · refine ⟨(), ?_⟩
      simp only [recognize, ← heq, hrow, pyMaxKey]
    · cases hpk : pyMaxKey (recognizeItem env models it.1 it.2) with
      | error e => exact ⟨e, by simp only [recognize, hpk]⟩
      | ok g =>
        obtain ⟨e, he⟩ := ih X l hmem hrow
        refine ⟨e, ?_⟩
        simp only [recognize, hpk, he]

/-- C8: on success every emitted guess is a word of its item's ScoreRow and
carries a score no row score strictly exceeds (Python's first-maximum `max`);
and a test item with an empty ScoreRow makes `recognize` raise instead of
returning. -/
theorem c8_guess_is_row_max :
    (∀ (env : Env) (models : List (String × HMMModel))
       (items : List (List (List ℚ) × List ℕ))
       (rows : List (List (String × PyFloat))) (guesses : List String),
     recognize env models items = .ok (rows, guesses) →
     List.Forall₂
       (fun row g => ∃ s, (g, s) ∈ row ∧ ∀ q ∈ row, PyFloat.lt s q.2 = false)
       rows guesses) ∧
    (∀ (env : Env) (models : List (String × HMMModel))
       (items : List (List (List ℚ) × List ℕ)) (X : List (List ℚ)) (l : List ℕ),
     (X, l) ∈ items → recognizeItem env models X l = [] →
     ∃ e, recognize env models items = .error e) :=
  ⟨fun env models items rows guesses h => recognize_ok_spec env models items rows guesses h,
   fun env models items X l h1 h2 => recognize_empty_row_error env models items X l h1 h2⟩

/-- C8 witness: a successful run on the fixture (word "B" guessed with score
`-7`) and an erroring run on a fixture whose only word scores `0.0` (empty
row). -/
theorem c8_witness :
    List.Forall₂
      (fun row g => ∃ s, (g, s) ∈ row ∧ ∀ q ∈ row, PyFloat.lt s q.2 = false)
      [[("B", PyFloat.val (-7))]] ["B"] ∧
    ∃ e, recognize envFix [("C", mod3)] [([], [])] = .error e :=
  ⟨c8_guess_is_row_max.1 envFix [("B", mod2)] [([], [])] [[("B", PyFloat.val (-7))]] ["B"]
     (by decide),
   c8_guess_is_row_max.2 envFix [("C", mod3)] [([], [])] [] [] (by decide) (by decide)⟩

/-!
## C9 — the trainer never propagates a fitting error
-/

/-- C9: `base_model` is total: on a successful fit it returns that fitted
model, and on a fitting error it returns the sentinel `None` — the error is
consumed inside `base_model` and never propagates. -/
theorem c9_base_model_total (env : Env) (X : List (List ℚ)) (lengths : List ℕ)
    (n : ℕ) :
    (∃ m, gaussianHMMFit env n X lengths = .ok m ∧
      base_model env X lengths n = some m) ∨
    (∃ e, gaussianHMMFit env n X lengths = .error e ∧
      base_model env X lengths n = none) := by
  cases h : gaussianHMMFit env n X lengths with
  | ok m => exact Or.inl ⟨m, rfl, by simp [base_model, h]⟩
  | error e => exact Or.inr ⟨e, rfl, by simp [base_model, h]⟩

/-!
## C5 — CV short-circuits with fewer than 3 sequences
-/

/-- C5: with fewer than 3 training sequences `SelectorCV.select` skips the
fold loop and returns the result of training once at the fixed state count 3
— including the failure sentinel `None` when that training fails. -/
theorem c5_cv_short_circuit (env : Env) (c : Selector)
    (h : c.sequences.length < 3) :
    SelectorCV.select env c = base_model env c.X c.lengths 3 ∧
    (env.fitFails 3 c.X c.lengths = true → SelectorCV.select env c = none) := by
  constructor
  · simp [SelectorCV.select, h]
  · intro hf
    simp [SelectorCV.select, h, base_model, gaussianHMMFit, hf]

/-- A word with exactly 2 training sequences. -/
def cShort : Selector :=
  { hwords := [("W", ([[0], [1]], [1, 1]))],
    sequences := [[[0]], [[1]]],
    X := [[0], [1]], lengths := [1, 1], this_word := "W",
    n_constant := 3, min_n_components := 2, max_n_components := 10 }

/-- C5 witness: the fixed-3-state fallback is returned with 2 sequences, and
the failure sentinel is passed through when that training fails. -/
theorem c5_witness :
    SelectorCV.select envFix cShort = base_model envFix cShort.X cShort.lengths 3 ∧
    SelectorCV.select envFail cShort = none :=
  ⟨(c5_cv_short_circuit envFix cShort (by decide)).1,
   (c5_cv_short_circuit envFail cShort (by decide)).2 (by decide)⟩

/-!
## C6 — CV candidate exceptions are skipped, best preserved
-/

/-- If every candidate fails, the CV loop leaves the running best untouched. -/
theorem cvLoop_all_fail (env : Env) (c : Selector) :
    ∀ (l : List ℕ) (b_s : PyFloat) (b_model : Option HMMModel),
    (∀ n ∈ l, cvEval env c n = .error ()) → cvLoop env c l b_s b_model = b_model := by
  intro l
  induction l with
  | nil => intro b_s b_model _; rfl
  | cons n rest ih =>
    intro b_s b_model hall
    have hn : cvEval env c n = .error () := hall n (by simp)
    simp only [cvLoop, hn]
    exact ih b_s b_model (fun x hx => hall x (by simp [hx]))

/-- C6: an exception while evaluating a CV candidate skips that candidate —
the loop continues with the running best unchanged — and if every candidate
in the range fails, the degraded fixed-3-state result is returned. -/
theorem c6_cv_exception_skips_candidate :
    (∀ (env : Env) (c : Selector) (n : ℕ) (rest : List ℕ) (b_s : PyFloat)
       (b_model : Option HMMModel), cvEval env c n = .error () →
       cvLoop env c (n :: rest) b_s b_model = cvLoop env c rest b_s b_model) ∧
    (∀ (env : Env) (c : Selector), ¬ c.sequences.length < 3 →
       (∀ n ∈ pyRange c.min_n_components c.max_n_components,
         cvEval env c n = .error ()) →
       SelectorCV.select env c = base_model env c.X c.lengths 3) := by
  constructor
  · intro env c n rest b_s b_model h
    simp only [cvLoop, h]
  · intro env c h3 hall
    simp only [SelectorCV.select, if_neg h3]
    exact cvLoop_all_fail env c _ _ _ hall

/-- A word with exactly 3 training sequences (too few for the 5-fold split,
so every CV candidate raises inside its `try`). -/
def cThree : Selector :=
  { hwords := [("W", ([[0], [1], [2]], [1, 1, 1]))],
    sequences := [[[0]], [[1]], [[2]]],
    X := [[0], [1], [2]], lengths := [1, 1, 1], this_word := "W",
    n_constant := 3, min_n_components := 2, max_n_components := 3 }

/-- C6 witness: a failing candidate is skipped with the state preserved, and
with every candidate failing the fallback model is returned. -/
theorem c6_witness :
    cvLoop envFix cThree (2 :: [3]) PyFloat.ninf none =
      cvLoop envFix cThree [3] PyFloat.ninf none ∧
    SelectorCV.select envFix cThree = base_model envFix cThree.X cThree.lengths 3 :=
  ⟨c6_cv_exception_skips_candidate.1 envFix cThree 2 [3] PyFloat.ninf none (by decide),
   c6_cv_exception_skips_candidate.2 envFix cThree (by decide) (by decide)⟩

/-!
## C3 — DIC with a single-word vocabulary
-/

/-- Subtracting `nan` yields `nan`. -/
theorem PyFloat.sub_nan (a : PyFloat) : PyFloat.sub a .nan = .nan := by
  cases a <;> rfl

/-- If no candidate ever beats the seed, the running-best fold returns the
seed state unchanged. -/
theorem argLoop_no_update (better : PyFloat → PyFloat → Bool)
    (score : ℕ → PyFloat) (mdl : ℕ → Option HMMModel) :
    ∀ (l : List ℕ) (st : PyFloat × Option HMMModel),
    (∀ n ∈ l, better (score n) st.1 = false) →
    argLoop better score mdl l st = st := by
  intro l
  induction l with
  | nil => intro st _; rfl
  | cons n rest ih =>
    intro st hall
    simp only [argLoop, hall n (by simp), Bool.false_eq_true, if_false]
    exact ih st (fun x hx => hall x (by simp [hx]))

/-- A single-word vocabulary fixture. -/
def cOne : Selector :=
  { hwords := [("W", ([], []))],
    sequences := [], X := [], lengths := [], this_word := "W",
    n_constant := 3, min_n_components := 2, max_n_components := 3 }

/-- C3 counterexample: the claim says the empty other-words mean is handled
by giving the candidate the score `-inf`; in fact a candidate whose own
scoring succeeds gets the score `nan` (from `np.mean([])`), not `-inf`. -/
theorem c3_counterexample :
    dicScore envPinf cOne 2 = PyFloat.nan ∧ PyFloat.nan ≠ PyFloat.ninf := by
  decide

/-- C3 (amended): with a single-word vocabulary no arithmetic error escapes
`SelectorDIC.select`: every candidate's score is `nan` (successful own-word
scoring: `logL - np.mean([])`) or `-inf` (failed candidate), neither of which
ever beats the running best of `-inf`, so no candidate is kept and the
selector returns `None`. -/
theorem c3_single_word_dic_returns_none (env : Env) (c : Selector)
    (hw : ∀ p ∈ c.hwords, p.1 = c.this_word) :
    SelectorDIC.select env c = none := by
  have hbad : ∀ n, PyFloat.lt .ninf (dicScore env c n) = false := by
    intro n
    cases hb : base_model env c.X c.lengths n with
    | none => simp [dicScore, hb, PyFloat.lt]
    | some m =>
      cases hs : env.scoreResult m c.X c.lengths with
      | error e => simp [dicScore, hb, hs, PyFloat.lt]
      | ok logL =>
        have hfilter : c.hwords.filter (fun p => decide (p.1 ≠ c.this_word)) = [] := by
          apply List.filter_eq_nil_iff.mpr
          intro p hp
          simp [hw p hp]
        have htmp : dicTmpScores env m c.hwords c.this_word = .ok [] := by
          simp only [dicTmpScores, hfilter]
          rfl
        simp [dicScore, hb, hs, htmp, npMean, PyFloat.sub_nan, PyFloat.lt]
  unfold SelectorDIC.select
  rw [dicLoop_eq_argLoop]
  rw [argLoop_no_update _ _ _ _ _ (fun n _ => hbad n)]

/-- C3 witness: the amended theorem applied to the single-word fixture. -/
theorem c3_witness : SelectorDIC.select envPinf cOne = none :=
  c3_single_word_dic_returns_none envPinf cOne (by decide)

/-!
## C4 — state-count bounds of returned models
-/

/-- A model returned by `base_model` is the fresh fit at the requested state
count on the selector's data. -/
theorem base_model_some {env : Env} {X : List (List ℚ)} {lengths : List ℕ}
    {n : ℕ} {m : HMMModel} (h : base_model env X lengths n = some m) :
    m = ⟨n, X, lengths⟩ := by
  simp only [base_model, gaussianHMMFit] at h
  by_cases hf : env.fitFails n X lengths
  · simp [hf] at h
  · simp [hf] at h
    exact h.symm

/-- A model returned by an in-place `model.fit` call keeps its state count
and carries the new data. -/
theorem modelFit_ok {env : Env} {m : HMMModel} {X : List (List ℚ)}
    {l : List ℕ} {m2 : HMMModel} (h : modelFit env m X l = .ok m2) :
    m2 = ⟨m.n_components, X, l⟩ := by
  simp only [modelFit] at h
  by_cases hf : env.fitFails m.n_components X l
  · simp [hf] at h
  · simp [hf] at h
    exact h.symm

/-- The fold loop refits the same model handle: the state count of the model
it returns is that of the model it started from. -/
theorem cvFoldLoop_ncomp (env : Env) (seqs : List (List (List ℚ))) :
    ∀ (folds : List (List ℕ × List ℕ)) (model : HMMModel) (scores : List PyFloat)
      (m : HMMModel) (sc : List PyFloat),
    cvFoldLoop env seqs folds model scores = .ok (m, sc) →
    m.n_components = model.n_components := by
  intro folds
  induction folds with
  | nil =>
    intro model scores m sc h
    simp only [cvFoldLoop, Except.ok.injEq, Prod.mk.injEq] at h
    rw [← h.1]
  | cons f rest ih =>
    intro model scores m sc h
    simp only [cvFoldLoop] at h
    split at h
    · exact absurd h (by simp)
    · rename_i model2 hfit
      split at h
      · exact absurd h (by simp)
      · rename_i tmp hs
        have h2 := ih _ _ _ _ h
        rw [h2, modelFit_ok hfit]

/-- Structure of a successful CV candidate evaluation. -/
theorem cvEval_ok_struct {env : Env} {c : Selector} {n : ℕ} {s : PyFloat}
    {m : HMMModel} (h : cvEval env c n = .ok (s, m)) :
    ∃ folds scores,
      base_model env c.X c.lengths n = some ⟨n, c.X, c.lengths⟩ ∧
      kfSplit 5 c.sequences.length = .ok folds ∧
      cvFoldLoop env c.sequences folds ⟨n, c.X, c.lengths⟩ [] = .ok (m, scores) ∧
      statsMean scores = .ok s := by
  unfold cvEval at h
  split at h
  · simp at h
  · rename_i model0 hb
    have hm0 : model0 = ⟨n, c.X, c.lengths⟩ := base_model_some hb
    subst hm0
    split at h
    · simp at h
    · rename_i folds hk
      split at h
      · simp at h
      · rename_i model2 scores hf
        split at h
        · simp at h
        · rename_i s2 hsm
          simp only [Except.ok.injEq, Prod.mk.injEq] at h
          obtain ⟨h1, h2⟩ := h
          subst h1
          rw [h2] at hf
          exact ⟨folds, scores, hb, hk, hf, hsm⟩

/-- The CV candidate loop returns either its seed model or the model of some
successfully evaluated candidate in the list. -/
theorem cvLoop_result (env : Env) (c : Selector) :
    ∀ (l : List ℕ) (b_s : PyFloat) (b_model : Option HMMModel),
    cvLoop env c l b_s b_model = b_model ∨
    ∃ n ∈ l, ∃ s mm, cvEval env c n = .ok (s, mm) ∧
      cvLoop env c l b_s b_model = some mm := by
  intro l
  induction l with
  | nil => intro _ _; exact Or.inl rfl
  | cons n rest ih =>
    intro b_s b_model
    cases he : cvEval env c n with
    | error e =>
      simp only [cvLoop, he]
      rcases ih b_s b_model with h | ⟨x, hx, s, mm, hok, hres⟩
      · exact Or.inl h
      · exact Or.inr ⟨x, by simp [hx], s, mm, hok, hres⟩
    | ok sm =>
      obtain ⟨s, mm⟩ := sm
      simp only [cvLoop, he]
      by_cases hlt : PyFloat.lt b_s s = true
      · rw [if_pos hlt]
        rcases ih s (some mm) with h | ⟨x, hx, s', mm', hok, hres⟩
        · exact Or.inr ⟨n, by simp, s, mm, he, h⟩
        · exact Or.inr ⟨x, by simp [hx], s', mm', hok, hres⟩
      · rw [if_neg hlt]
        rcases ih b_s b_model with h | ⟨x, hx, s', mm', hok, hres⟩
        · exact Or.inl h
        · exact Or.inr ⟨x, by simp [hx], s', mm', hok, hres⟩

/-- A selector configuration whose `n_constant` lies outside the candidate
range `[2, 4]`. -/
def cBad : Selector :=
  { hwords := [], sequences := [], X := [], lengths := [], this_word := "W",
    n_constant := 5, min_n_components := 2, max_n_components := 4 }

/-- C4 counterexample: the claim quantifies over every strategy, but
`SelectorConstant` trains at `n_constant`, which is not clamped to
`[min_n_components, max_n_components]`: here it returns a 5-state model
with the range set to `[2, 4]`. -/
theorem c4_counterexample :
    SelectorConstant.select envFix cBad = some ⟨5, [], []⟩ ∧
    ¬ (cBad.min_n_components ≤ 5 ∧ 5 ≤ cBad.max_n_components) := by decide

/-- C4 (amended): BIC and DIC return models inside the candidate range
unconditionally; `SelectorConstant` returns a model with exactly
`n_constant` states (in range only when `n_constant` is); `SelectorCV`
returns a model inside the range or the fixed fallback with exactly 3 states
(in range only when 3 is).  With the source defaults
(`n_constant = 3`, range `[2, 10]`) the claimed bound therefore holds. -/
theorem c4_amended_bounds :
    (∀ (env : Env) (c : Selector) (m : HMMModel),
       SelectorBIC.select env c = some m →
       c.min_n_components ≤ m.n_components ∧
         m.n_components ≤ c.max_n_components) ∧
    (∀ (env : Env) (c : Selector) (m : HMMModel),
       SelectorDIC.select env c = some m →
       c.min_n_components ≤ m.n_components ∧
         m.n_components ≤ c.max_n_components) ∧
    (∀ (env : Env) (c : Selector) (m : HMMModel),
       SelectorConstant.select env c = some m →
       m.n_components = c.n_constant) ∧
    (∀ (env : Env) (c : Selector) (m : HMMModel),
       SelectorCV.select env c = some m →
       (c.min_n_components ≤ m.n_components ∧
         m.n_components ≤ c.max_n_components) ∨
       m.n_components = 3) := by
  refine ⟨?_, ?_, ?_, ?_⟩
  · intro env c m h
    unfold SelectorBIC.select at h
    rw [bicLoop_eq_argLoop] at h
    rcases argLoop_snd_mem (fun s b => PyFloat.lt s b) (bicScore env c)
        (base_model env c.X c.lengths)
        (pyRange c.min_n_components c.max_n_components) (.pinf, none) with hr | ⟨n, hn, hr⟩
    · rw [hr] at h; simp at h
    · rw [hr] at h
      have hmn : m.n_components = n := by rw [base_model_some h]
      have hb := List.mem_range'_1.mp (by simpa [pyRange] using hn)
      exact ⟨by omega, by omega⟩
  · intro env c m h
    unfold SelectorDIC.select at h
    rw [dicLoop_eq_argLoop] at h
    rcases argLoop_snd_mem (fun s b => PyFloat.lt b s) (dicScore env c)
        (base_model env c.X c.lengths)
        (pyRange c.min_n_components c.max_n_components) (.ninf, none) with hr | ⟨n, hn, hr⟩
    · rw [hr] at h; simp at h
    · rw [hr] at h
      have hmn : m.n_components = n := by rw [base_model_some h]
      have hb := List.mem_range'_1.mp (by simpa [pyRange] using hn)
      exact ⟨by omega, by omega⟩
  · intro env c m h
    unfold SelectorConstant.select at h
    rw [base_model_some h]
  · intro env c m h
    by_cases h3 : c.sequences.length < 3
    · have hm : base_model env c.X c.lengths 3 = some m := by
        simpa [SelectorCV.select, h3] using h
      right
      rw [base_model_some hm]
    · have hm : cvLoop env c (pyRange c.min_n_components c.max_n_components)
          .ninf (base_model env c.X c.lengths 3) = some m := by
        simpa [SelectorCV.select, h3] using h
      rcases cvLoop_result env c (pyRange c.min_n_components c.max_n_components)
          .ninf (base_model env c.X c.lengths 3) with hr | ⟨n, hn, s, mm, hok, hres⟩
      · rw [hr] at hm
        right
        rw [base_model_some hm]
      · rw [hres] at hm
        have hmm : mm = m := by simpa using hm
        subst hmm
        left
        obtain ⟨folds, scores, hbm, hk, hfl, hsm⟩ := cvEval_ok_struct hok
        have hmn : mm.n_components = n := cvFoldLoop_ncomp env c.sequences folds _ _ _ _ hfl
        have hb := List.mem_range'_1.mp (by simpa [pyRange] using hn)
        exact ⟨by omega, by omega⟩

/-- C4 witness: the amended bounds applied to the fixtures (Constant at
`n_constant = 5`, BIC winning at the range minimum 2). -/
theorem c4_witness :
    ((⟨5, [], []⟩ : HMMModel).n_components = cBad.n_constant) ∧
    (cOne.min_n_components ≤ (⟨2, [], []⟩ : HMMModel).n_components ∧
      (⟨2, [], []⟩ : HMMModel).n_components ≤ cOne.max_n_components) :=
  ⟨c4_amended_bounds.2.2.1 envFix cBad ⟨5, [], []⟩ (by decide),
   c4_amended_bounds.1 envPinf cOne ⟨2, [], []⟩ (by decide)⟩

/-!
## C2 — BIC scores the range and keeps the first strict minimum
-/

/-- C2: every candidate `k` whose training or scoring fails gets BIC score
`+inf` (never selectable); and whenever some candidate in the ascending range
scores below `+inf` (and no score is `nan`), the selector returns the model
trained at a candidate `n` within `[min_n_components, max_n_components]`
whose score no candidate's score strictly undercuts, with every candidate
before `n` scoring strictly worse — the first minimum wins under strict `<`,
so ties prefer the lower state count. -/
theorem c2_bic_first_minimum (env : Env) (c : Selector)
    (hnn : ∀ n ∈ pyRange c.min_n_components c.max_n_components,
      bicScore env c n ≠ .nan)
    (hex : ∃ n ∈ pyRange c.min_n_components c.max_n_components,
      PyFloat.lt (bicScore env c n) .pinf = true) :
    (∀ k, optScore env (base_model env c.X c.lengths k) c.X c.lengths =
        .error () → bicScore env c k = .pinf) ∧
    ∃ n, c.min_n_components ≤ n ∧ n ≤ c.max_n_components ∧
      SelectorBIC.select env c = base_model env c.X c.lengths n ∧
      (∀ k, c.min_n_components ≤ k → k ≤ c.max_n_components →
        PyFloat.lt (bicScore env c k) (bicScore env c n) = false) ∧
      (∀ k, c.min_n_components ≤ k → k < n →
        PyFloat.lt (bicScore env c n) (bicScore env c k) = true) := by
  constructor
  · intro k hk
    simp [bicScore, hk]
  · rcases argLoop_first_min (bicScore env c) (base_model env c.X c.lengths)
        (pyRange c.min_n_components c.max_n_components) .pinf none hnn (by simp)
      with ⟨hr, hrest⟩ | ⟨i, hi, hr, hib, htake, hall⟩
    · obtain ⟨n, hn, hlt⟩ := hex
      rw [hrest n hn] at hlt
      exact absurd hlt (by simp)
    · have hi' : i < c.max_n_components + 1 - c.min_n_components := by
        simpa [pyRange] using hi
      have hni : (pyRange c.min_n_components c.max_n_components).get ⟨i, hi⟩ =
          c.min_n_components + i := by
        simp [pyRange, List.getElem_range']
      refine ⟨(pyRange c.min_n_components c.max_n_components).get ⟨i, hi⟩,
        by rw [hni]; omega, by rw [hni]; omega, ?_, ?_, ?_⟩
      · unfold SelectorBIC.select
        rw [bicLoop_eq_argLoop, hr]
      · intro k h1 h2
        refine hall k ?_
        simp only [pyRange, List.mem_range'_1]
        omega
      · intro k h1 h2
        rw [hni] at h2
        refine htake k ?_
        simp only [pyRange]
        rw [take_range', Nat.min_eq_left (Nat.le_of_lt hi'), List.mem_range'_1]
        omega

/-- C2 witness: the theorem applied to a concrete configuration where every
candidate scores (`logL = +inf`, so every BIC score is `-inf` and the first
candidate, the range minimum 2, wins). -/
theorem c2_witness :
    (∀ k, optScore envPinf (base_model envPinf cOne.X cOne.lengths k) cOne.X
        cOne.lengths = .error () → bicScore envPinf cOne k = .pinf) ∧
    ∃ n, cOne.min_n_components ≤ n ∧ n ≤ cOne.max_n_components ∧
      SelectorBIC.select envPinf cOne = base_model envPinf cOne.X cOne.lengths n ∧
      (∀ k, cOne.min_n_components ≤ k → k ≤ cOne.max_n_components →
        PyFloat.lt (bicScore envPinf cOne k) (bicScore envPinf cOne n) = false) ∧
      (∀ k, cOne.min_n_components ≤ k → k < n →
        PyFloat.lt (bicScore envPinf cOne n) (bicScore envPinf cOne k) = true) :=
  c2_bic_first_minimum envPinf cOne (by decide) (by decide)

/-!
## C10 — the CV winner's parameters come from the last fold's training subset
-/

/-- A filter that excludes at least one list element is strictly shorter. -/
theorem filter_length_lt_of_mem {α : Type} (p : α → Bool) :
    ∀ (l : List α) (x : α), x ∈ l → p x = false →
    (l.filter p).length < l.length := by
  intro l
  induction l with
  | nil => intro x h _; simp at h
  | cons a rest ih =>
    intro x hx hpx
    rcases List.mem_cons.mp hx with rfl | hx
    · rw [List.filter_cons, hpx]
      simp only [Bool.false_eq_true, if_false, List.length_cons]
      exact Nat.lt_succ_of_le (List.length_filter_le p rest)
    · rw [List.filter_cons]
      by_cases hpa : p a = true
      · simp only [hpa, if_true, List.length_cons]
        exact Nat.succ_lt_succ (ih x hx hpx)
      · have hfa : p a = false := by simpa using hpa
        simp only [hfa, Bool.false_eq_true, if_false, List.length_cons]
        exact Nat.lt_succ_of_lt (ih x hx hpx)

/-- The last `(start, size)` block built from a nonempty size list: its size
is the last size and its end is the base plus the total. -/
theorem kfoldBlocks_getLast :
    ∀ (l : List ℕ) (sz : ℕ) (s : ℕ), l.getLast? = some sz →
    ∃ st, (kfoldBlocks l s).getLast? = some (st, sz) ∧ st + sz = s + l.sum := by
  intro l
  induction l with
  | nil => intro sz s h; simp at h
  | cons a rest ih =>
    intro sz s h
    cases rest with
    | nil =>
      have ha : a = sz := by simpa using h
      subst ha
      exact ⟨s, by simp [kfoldBlocks], by simp⟩
    | cons b bs =>
      have h2 : (b :: bs).getLast? = some sz := by
        rw [← h]
        exact (List.getLast?_cons_cons ..).symm
      obtain ⟨st, h3, h4⟩ := ih sz (s + a) h2
      refine ⟨st, ?_, by simp only [List.sum_cons] at h4 ⊢; omega⟩
      rw [show kfoldBlocks (a :: b :: bs) s =
          (s, a) :: (s + a, b) :: kfoldBlocks bs (s + a + b) from rfl]
      rw [List.getLast?_cons_cons]
      rw [show (s + a, b) :: kfoldBlocks bs (s + a + b) =
          kfoldBlocks (b :: bs) (s + a) from rfl]
      exact h3

/-- The 5-fold split on `n ≥ 5` samples succeeds with a nonempty fold list
whose last fold trains on strictly fewer than all `n` sequence indices. -/
theorem kfSplit_last_block (n : ℕ) (h5 : 5 ≤ n) :
    ∃ folds, kfSplit 5 n = .ok folds ∧ folds ≠ [] ∧
      ∃ f, folds.getLast? = some f ∧ f.1.length < n := by
  have hn5 : ¬ n < 5 := by omega
  have hks : kfSplit 5 n = .ok ((kfoldBlocks (kfoldSizes 5 n) 0).map (fun b =>
      ((List.range n).filter (fun i => decide (i < b.1) || decide (b.1 + b.2 ≤ i)),
       (List.range n).filter (fun i => decide (b.1 ≤ i) && decide (i < b.1 + b.2))))) := by
    unfold kfSplit
    rw [if_neg hn5]
  have hlast : (kfoldSizes 5 n).getLast? =
      some (n / 5 + if 4 < n % 5 then 1 else 0) := by
    unfold kfoldSizes
    rfl
  have hsum : (kfoldSizes 5 n).sum =
      (n / 5 + if 0 < n % 5 then 1 else 0) + ((n / 5 + if 1 < n % 5 then 1 else 0) +
      ((n / 5 + if 2 < n % 5 then 1 else 0) + ((n / 5 + if 3 < n % 5 then 1 else 0) +
      ((n / 5 + if 4 < n % 5 then 1 else 0) + 0)))) := by
    unfold kfoldSizes
    rfl
  obtain ⟨st, hbl, hstsz⟩ := kfoldBlocks_getLast (kfoldSizes 5 n) _ 0 hlast
  have hend : st + (n / 5 + if 4 < n % 5 then 1 else 0) = n := by
    rw [hstsz, hsum]
    split_ifs <;> omega
  have hsz1 : 1 ≤ n / 5 + if 4 < n % 5 then 1 else 0 := by
    split_ifs <;> omega
  have hstn : st < n := by omega
  refine ⟨_, hks, ?_, ?_⟩
  · intro hnil
    rw [List.map_eq_nil_iff] at hnil
    rw [hnil] at hbl
    simp at hbl
  · refine ⟨((List.range n).filter
        (fun i => decide (i < st) || decide (st + (n / 5 + if 4 < n % 5 then 1 else 0) ≤ i)),
      (List.range n).filter
        (fun i => decide (st ≤ i) && decide (i < st + (n / 5 + if 4 < n % 5 then 1 else 0)))),
      ?_, ?_⟩
    · rw [List.getLast?_map, hbl]
      rfl
    · show ((List.range n).filter
        (fun i => decide (i < st) || decide (st + (n / 5 + if 4 < n % 5 then 1 else 0) ≤ i))).length < n
      have hp : (fun i => decide (i < st) ||
          decide (st + (n / 5 + if 4 < n % 5 then 1 else 0) ≤ i)) st = false := by
        simp only [Bool.or_eq_false_iff, decide_eq_false_iff_not]
        omega
      have hlt := filter_length_lt_of_mem (fun i => decide (i < st) ||
          decide (st + (n / 5 + if 4 < n % 5 then 1 else 0) ≤ i))
        (List.range n) st (List.mem_range.mpr hstn) hp
      simpa [List.length_range] using hlt

/-- The model coming out of the fold loop was last refit on the final fold's
training subset (or is the untouched input when there are no folds). -/
theorem cvFoldLoop_last (env : Env) (seqs : List (List (List ℚ))) :
    ∀ (folds : List (List ℕ × List ℕ)) (model : HMMModel) (scores : List PyFloat)
      (m : HMMModel) (sc : List PyFloat),
    cvFoldLoop env seqs folds model scores = .ok (m, sc) →
    (folds = [] ∧ m = model) ∨
    (∃ f, folds.getLast? = some f ∧
      m = ⟨model.n_components, (combine_sequences f.1 seqs).1,
           (combine_sequences f.1 seqs).2⟩) := by
  intro folds
  induction folds with
  | nil =>
    intro model scores m sc h
    simp only [cvFoldLoop, Except.ok.injEq, Prod.mk.injEq] at h
    exact Or.inl ⟨rfl, h.1.symm⟩
  | cons f rest ih =>
    intro model scores m sc h
    simp only [cvFoldLoop] at h
    split at h
    · exact absurd h (by simp)
    · rename_i model2 hfit
      split at h
      · exact absurd h (by simp)
      · rename_i tmp hs
        have hm2 := modelFit_ok hfit
        rcases ih _ _ _ _ h with ⟨hrest, hm⟩ | ⟨f2, hl2, hm⟩
        · subst hrest
          refine Or.inr ⟨f, by simp, ?_⟩
          rw [hm, hm2]
        · refine Or.inr ⟨f2, ?_, ?_⟩
          · cases rest with
            | nil => simp at hl2
            | cons b bs =>
              rw [List.getLast?_cons_cons]
              exact hl2
          · rw [hm, hm2]

/-- C10: when `SelectorCV.select` returns a model chosen by the fold loop
(rather than the degraded fallback), that model is the one candidate instance
refit once per fold, its recorded fit data is the concatenation of the LAST
fold's training indices only, and that data is never the word's full
concatenated `(X, lengths)`. -/
theorem c10_cv_winner_fit_on_last_fold (env : Env) (c : Selector) (m : HMMModel)
    (hseq : ¬ c.sequences.length < 3)
    (hcons : c.lengths = c.sequences.map List.length)
    (hsel : SelectorCV.select env c = some m) :
    some m = base_model env c.X c.lengths 3 ∨
    ∃ n ∈ pyRange c.min_n_components c.max_n_components, ∃ s folds f,
      cvEval env c n = .ok (s, m) ∧
      kfSplit 5 c.sequences.length = .ok folds ∧
      folds.getLast? = some f ∧
      m.fitX = (combine_sequences f.1 c.sequences).1 ∧
      m.fitLengths = (combine_sequences f.1 c.sequences).2 ∧
      (m.fitX, m.fitLengths) ≠ (c.X, c.lengths) := by
  have hm : cvLoop env c (pyRange c.min_n_components c.max_n_components) .ninf
      (base_model env c.X c.lengths 3) = some m := by
    simpa [SelectorCV.select, hseq] using hsel
  rcases cvLoop_result env c (pyRange c.min_n_components c.max_n_components)
      .ninf (base_model env c.X c.lengths 3) with hr | ⟨n, hn, s, mm, hok, hres⟩
  · left
    rw [hr] at hm
    exact hm.symm
  · rw [hres] at hm
    have hmmm : mm = m := by simpa using hm
    subst hmmm
    right
    obtain ⟨folds, scores, hbm, hk, hfl, hsm⟩ := cvEval_ok_struct hok
    have h5 : 5 ≤ c.sequences.length := by
      by_contra hlt
      have herr : kfSplit 5 c.sequences.length = .error () := by
        unfold kfSplit
        rw [if_pos (by omega)]
      rw [herr] at hk
      exact absurd hk (by simp)
    obtain ⟨folds2, hks2, hne2, f, hlf, hflen⟩ := kfSplit_last_block c.sequences.length h5
    have hfe : folds2 = folds := by
      rw [hks2] at hk
      simpa using hk
    subst hfe
    rcases cvFoldLoop_last env c.sequences folds2 _ _ _ _ hfl with ⟨hnil, _⟩ | ⟨f2, hl2, hm2⟩
    · exact absurd hnil hne2
    · have hf2 : f2 = f := by
        rw [hl2] at hlf
        simpa using hlf
      subst hf2
      refine ⟨n, hn, s, folds2, f2, hok, hks2, hlf, by rw [hm2], by rw [hm2], ?_⟩
      intro heq
      have h1 : mm.fitLengths = c.lengths := (Prod.ext_iff.mp heq).2
      have hlen1 : mm.fitLengths.length = f2.1.length := by
        rw [hm2]
        simp [combine_sequences]
      have hlen2 : c.lengths.length = c.sequences.length := by
        rw [hcons]
        simp
      rw [h1] at hlen1
      omega

/-- A word with 5 single-frame training sequences (enough for the 5-fold
split) and a single candidate state count 2. -/
def cFive : Selector :=
  { hwords := [("W", ([[0], [1], [2], [3], [4]], [1, 1, 1, 1, 1]))],
    sequences := [[[0]], [[1]], [[2]], [[3]], [[4]]],
    X := [[0], [1], [2], [3], [4]], lengths := [1, 1, 1, 1, 1], this_word := "W",
    n_constant := 3, min_n_components := 2, max_n_components := 2 }

/-- C10 witness: on the 5-sequence fixture the fold-loop winner's recorded
fit data is the concatenation of the last fold's training indices
`[0, 1, 2, 3]`, not the full 5-sequence data. -/
theorem c10_witness :
    some (⟨2, [[0], [1], [2], [3]], [1, 1, 1, 1]⟩ : HMMModel) =
        base_model envPinf cFive.X cFive.lengths 3 ∨
    ∃ n ∈ pyRange cFive.min_n_components cFive.max_n_components, ∃ s folds f,
      cvEval envPinf cFive n =
        .ok (s, (⟨2, [[0], [1], [2], [3]], [1, 1, 1, 1]⟩ : HMMModel)) ∧
      kfSplit 5 cFive.sequences.length = .ok folds ∧
      folds.getLast? = some f ∧
      (⟨2, [[0], [1], [2], [3]], [1, 1, 1, 1]⟩ : HMMModel).fitX =
        (combine_sequences f.1 cFive.sequences).1 ∧
      (⟨2, [[0], [1], [2], [3]], [1, 1, 1, 1]⟩ : HMMModel).fitLengths =
        (combine_sequences f.1 cFive.sequences).2 ∧
      ((⟨2, [[0], [1], [2], [3]], [1, 1, 1, 1]⟩ : HMMModel).fitX,
       (⟨2, [[0], [1], [2], [3]], [1, 1, 1, 1]⟩ : HMMModel).fitLengths) ≠
        (cFive.X, cFive.lengths) :=
  c10_cv_winner_fit_on_last_fold envPinf cFive
    ⟨2, [[0], [1], [2], [3]], [1, 1, 1, 1]⟩ (by decide) (by decide) (by decide)
